import Mathlib

/-!
Verification of the core components of the indepth_analysis repository:
the text chunker (src/indepth_analysis/processing/chunker.py), the
investment signal aggregator (src/indepth_analysis/analysis/aggregator.py
and models/common.py) and the in-memory search index
(src/indepth_analysis/search/indexer.py).

Modelling conventions.
Text is modelled as List Char.  Python floats are modelled as rationals:
every numeric computation of the modelled code stays in a range where
IEEE double arithmetic agrees with the idealised rational value at the
compared thresholds (comments at the relevant definitions justify the
individual translations).  Regular expressions are modelled by hand;
comments give the derivation of the one-pass form from the leftmost,
greedy matching semantics of Python's re module.
-/

/-! Character level utilities shared by the chunker model.  isWS models
the whitespace class of Python's str.strip and of the regex class for
whitespace applied to the ASCII range (the unicode whitespace code
points beyond ASCII are not modelled; no claim depends on them). -/

def isWS (c : Char) : Bool :=
  c == ' ' || c == '\t' || c == '\n' || c == '\r' || c == '\x0b' || c == '\x0c'

/-- Characters of a text that are not whitespace, in order.  Used to
state that chunking preserves content up to separator whitespace. -/
def nonWS (l : List Char) : List Char := l.filter (fun c => !isWS c)

/-- Python str.strip(): drop whitespace from both ends. -/
def pstrip (l : List Char) : List Char :=
  ((l.dropWhile isWS).reverse.dropWhile isWS).reverse

/-! Chunker: token estimate.  Python computes int(len(text) / 3.5) which,
since 3.5 is exactly representable and the exact quotient 2*len/7 is
either an integer (then exactly representable and returned exactly by
correctly rounded division) or at distance at least 1/7 from the nearest
integer (far above the rounding error for any realistic length), equals
the integer floor of 2*len/7. -/
def estimate_tokens (l : List Char) : Nat := max 1 (2 * l.length / 7)

/-! Paragraph splitting.  The source splits on the regex of a newline,
then any run of whitespace, then a newline, with leftmost greedy
matching.  Since the middle class is greedy over whitespace and must
leave a final newline, a match is exactly the segment of a maximal
whitespace run from its first newline to its last newline, and only
runs containing at least two newlines match; whitespace of the run
before its first newline stays with the preceding piece and whitespace
after its last newline stays with the following piece.  The one-pass
splitter below buffers the current whitespace run (in reverse) and cuts
it when the run closes. -/

def nlCount (l : List Char) : Nat := l.countP (fun c => c == '\n')

def splitParasGo (p : List Char) (run : List Char) : List Char → List (List Char)
  | [] =>
    if 2 ≤ nlCount run then
      [p.reverse ++ run.reverse.takeWhile (fun c => !(c == '\n')),
       (run.takeWhile (fun c => !(c == '\n'))).reverse]
    else
      [p.reverse ++ run.reverse]
  | c :: rest =>
    if isWS c then
      splitParasGo p (c :: run) rest
    else
      if 2 ≤ nlCount run then
        (p.reverse ++ run.reverse.takeWhile (fun c => !(c == '\n'))) ::
          splitParasGo (c :: run.takeWhile (fun c => !(c == '\n'))) [] rest
      else
        splitParasGo (c :: (run ++ p)) [] rest

def splitParas (l : List Char) : List (List Char) := splitParasGo [] [] l

/-! Sentence splitting for oversized paragraphs.  The source splits on a
run of whitespace preceded (by lookbehind) by one of the four sentence
end marks.  A match is a maximal whitespace run whose preceding
character is a sentence end mark; the whole run is removed. -/

def isSentEnd (c : Char) : Bool := c == '.' || c == '!' || c == '?' || c == '。'

def splitSentGo (p : List Char) (run : List Char) : List Char → List (List Char)
  | [] =>
    match p with
    | [] => [run.reverse]
    | h :: _ => if !run.isEmpty && isSentEnd h then [p.reverse, []] else [p.reverse ++ run.reverse]
  | c :: rest =>
    if isWS c then
      splitSentGo p (c :: run) rest
    else
      match p with
      | [] => splitSentGo (c :: (run ++ p)) [] rest
      | h :: _ =>
        if !run.isEmpty && isSentEnd h then
          p.reverse :: splitSentGo [c] [] rest
        else
          splitSentGo (c :: (run ++ p)) [] rest

def splitSentences (l : List Char) : List (List Char) := splitSentGo [] [] l

/-- Python str.split on a single newline, keeping empty pieces. -/
def splitOnNl : List Char → List (List Char)
  | [] => [[]]
  | c :: r =>
    if c == '\n' then [] :: splitOnNl r
    else
      match splitOnNl r with
      | [] => [[c]]
      | h :: t => (c :: h) :: t

/-! Fixed-size character windows, the last fallback of the large-block
splitter.  The fuel argument (initially the length of the list) makes
the recursion structural; when the window size is at least one the fuel
is sufficient and the windows partition the text exactly as Python's
slice loop does.  (For a window size of zero Python's range raises; that
case is unreachable for the positive token budgets of the claims.) -/
def splitEveryGo : Nat → Nat → List Char → List (List Char)
  | 0, _, _ => []
  | fuel + 1, k, l =>
    if l.isEmpty then []
    else l.take k :: splitEveryGo fuel k (l.drop k)

def splitEvery (k : Nat) (l : List Char) : List (List Char) := splitEveryGo l.length k l

/-- Window size of the character fallback: int(max_tokens * 3.5), exact
in doubles for any realistic budget, hence the floor of 7*mx/2. -/
def maxChars (mx : Nat) : Nat := 7 * mx / 2

/-- One step of the greedy sentence accumulation loop of the
large-block splitter; state is (result, current). -/
def glueStep (mx : Nat) (st : List (List Char) × List Char) (sent : List Char) :
    List (List Char) × List Char :=
  if mx < estimate_tokens (st.2 ++ [' '] ++ sent) ∧ st.2 ≠ [] then
    (st.1 ++ [pstrip st.2], sent)
  else
    (st.1, if st.2 ≠ [] then pstrip (st.2 ++ [' '] ++ sent) else sent)

def glue (mx : Nat) (sents : List (List Char)) : List (List Char) :=
  let st := sents.foldl (glueStep mx) ([], [])
  if pstrip st.2 ≠ [] then st.1 ++ [pstrip st.2] else st.1

/-- Model of _split_large_block: sentence split, else line split, else
fixed character windows; the first two are glued greedily up to mx
tokens. -/
def split_large_block (mx : Nat) (text : List Char) : List (List Char) :=
  let s1 := splitSentences text
  let s2 := if s1.length ≤ 1 then splitOnNl text else s1
  if s2.length ≤ 1 then splitEvery (maxChars mx) text
  else glue mx s2

/-! Table heuristic (_is_table_block).  A line counts as columnar when it
contains a tab, a pipe, or at least two maximal whitespace runs of
length at least three (the regex findall of three-or-more whitespace,
greedy, yields exactly one match per maximal run of length at least
three).  The float comparison count/len > 0.5 is exact as 2*count > len
for any realistic line count. -/

def wsRuns3Go (runlen : Nat) : List Char → Nat
  | [] => if 3 ≤ runlen then 1 else 0
  | c :: r =>
    if isWS c then wsRuns3Go (runlen + 1) r
    else (if 3 ≤ runlen then 1 else 0) + wsRuns3Go 0 r

def lineTabby (l : List Char) : Bool :=
  l.contains '\t' || l.contains '|' || decide (2 ≤ wsRuns3Go 0 l)

def is_table_block (t : List Char) : Bool :=
  let lines := splitOnNl (pstrip t)
  if lines.length < 2 then false
  else decide (lines.length < 2 * lines.countP lineTabby)

/-- The table property exactly as claim C7 words it, with no minimum on
the number of lines: more than half of the lines of the content are
columnar. -/
def claimTablePred (t : List Char) : Bool :=
  let lines := splitOnNl t
  decide (lines.length < 2 * lines.countP lineTabby)

/-! Page tracking. -/

/-- Cumulative page end offsets; each page contributes its length plus
the two-character join separator. -/
def pageOffsets : List (List Char) → List Nat :=
  fun pages => pageOffsetsGo 0 pages
where
  pageOffsetsGo (acc : Nat) : List (List Char) → List Nat
    | [] => []
    | p :: r => (acc + p.length + 2) :: pageOffsetsGo (acc + p.length + 2) r

/-- Model of _find_page: first index whose offset exceeds the position,
else the last index.  (Called only with a nonempty offset list; on an empty list
Python would return -1, which the caller guards against.) -/
def find_page (off : Nat) (pos : List Nat) : Nat := findPageGo off 0 pos
where
  findPageGo (off i : Nat) : List Nat → Nat
    | [] => i - 1
    | p :: r => if off < p then i else findPageGo off (i + 1) r

structure Chunk where
  report_id : Int
  chunk_index : Nat
  content : List Char
  page_start : Option Nat
  page_end : Option Nat
  token_count : Option Nat
  is_table : Bool
deriving DecidableEq

def make_chunk (text : List Char) (rid : Int) (index : Nat) (startOff : Nat)
    (po : List Nat) : Chunk :=
  { report_id := rid
    chunk_index := index
    content := text
    page_start := if po.isEmpty then none else some (find_page startOff po + 1)
    page_end := if po.isEmpty then none else some (find_page (startOff + text.length) po + 1)
    token_count := some (estimate_tokens text)
    is_table := is_table_block text }

/-! The accumulation loop of chunk_text. -/

structure ChunkState where
  chunks : List Chunk
  cur : List Char
  curStart : Nat
  off : Nat

def sepNl : List Char := ['\n', '\n']

def stepPara (rid : Int) (mx : Nat) (po : List Nat) (st : ChunkState)
    (para : List Char) : ChunkState :=
  if mx < estimate_tokens para then
    -- oversized paragraph: flush the buffer, then force-split
    let st1 : ChunkState :=
      if pstrip st.cur ≠ [] then
        { st with
          chunks := st.chunks ++ [make_chunk (pstrip st.cur) rid st.chunks.length st.curStart po]
          cur := [] }
      else st
    let chunks2 := (split_large_block mx para).foldl
      (fun cs sc => cs ++ [make_chunk sc rid cs.length st.off po]) st1.chunks
    { chunks := chunks2
      cur := st1.cur
      curStart := st.off + para.length + 2
      off := st.off + para.length + 2 }
  else
    if mx < estimate_tokens (st.cur ++ sepNl ++ para) ∧ pstrip st.cur ≠ [] then
      { chunks := st.chunks ++ [make_chunk (pstrip st.cur) rid st.chunks.length st.curStart po]
        cur := para
        curStart := st.off
        off := st.off + para.length + 2 }
    else
      if st.cur ≠ [] then
        { st with cur := st.cur ++ sepNl ++ para, off := st.off + para.length + 2 }
      else
        { st with cur := para, curStart := st.off, off := st.off + para.length + 2 }

/-- chunk_text before the trailing-merge post-pass: paragraph split,
greedy accumulation, final flush.  target_tokens is accepted but, as in
the source, never read. -/
def chunkTextCore (full : List Char) (pages : List (List Char)) (rid : Int)
    (tgt mn mx : Nat) : List Chunk :=
  let po := pageOffsets pages
  let paras := ((splitParas full).map pstrip).filter (fun p => !p.isEmpty)
  let st := paras.foldl (stepPara rid mx po) ⟨[], [], 0, 0⟩
  if pstrip st.cur ≠ [] then
    st.chunks ++ [make_chunk (pstrip st.cur) rid st.chunks.length st.curStart po]
  else st.chunks

/-- Optional truthiness of token_count followed by the comparison with
min_tokens, as in the Python condition (None and 0 are falsy). -/
def tinyTrailing (o : Option Nat) (mn : Nat) : Bool :=
  match o with
  | none => false
  | some t => t != 0 && t < mn

/-- The trailing-merge post-pass: when the final chunk is below
min_tokens and the merged text stays within 1.5 * max_tokens (exactly
2*estimate <= 3*mx in integers), fold it into the previous chunk.  The
previous chunk keeps its index, page_start and is_table flag; content,
token_count and page_end are updated. -/
def mergeTrailing (mn mx : Nat) (cs : List Chunk) : List Chunk :=
  match cs.reverse with
  | last :: prev :: restRev =>
    if tinyTrailing last.token_count mn then
      let merged := prev.content ++ sepNl ++ last.content
      if 2 * estimate_tokens merged ≤ 3 * mx then
        ({ prev with
            content := merged
            token_count := some (estimate_tokens merged)
            page_end := last.page_end } :: restRev).reverse
      else cs
    else cs
  | _ => cs

def chunk_text (full : List Char) (pages : List (List Char)) (rid : Int)
    (tgt mn mx : Nat) : List Chunk :=
  mergeTrailing mn mx (chunkTextCore full pages rid tgt mn mx)

/-! Aggregator: signals (models/common.py) and the weighted combination
(analysis/aggregator.py).  Floats are modelled as rationals; the score
thresholds and the signal numerics are the exact decimal values. -/

inductive Signal where
  | STRONG_BUY | BUY | LEAN_BUY | NEUTRAL | LEAN_SELL | SELL | STRONG_SELL
deriving DecidableEq

def Signal.numeric : Signal → ℚ
  | .STRONG_BUY => 1
  | .BUY => 67 / 100
  | .LEAN_BUY => 33 / 100
  | .NEUTRAL => 0
  | .LEAN_SELL => -(33 / 100)
  | .SELL => -(67 / 100)
  | .STRONG_SELL => -1

def Signal.fromScore (s : ℚ) : Signal :=
  if 4 / 5 ≤ s then .STRONG_BUY
  else if 1 / 2 ≤ s then .BUY
  else if 1 / 5 ≤ s then .LEAN_BUY
  else if -(1 / 5) ≤ s then .NEUTRAL
  else if -(1 / 2) ≤ s then .LEAN_SELL
  else if -(4 / 5) ≤ s then .SELL
  else .STRONG_SELL

def Signal.value : Signal → String
  | .STRONG_BUY => "STRONG BUY"
  | .BUY => "BUY"
  | .LEAN_BUY => "LEAN BUY"
  | .NEUTRAL => "NEUTRAL"
  | .LEAN_SELL => "LEAN SELL"
  | .SELL => "SELL"
  | .STRONG_SELL => "STRONG SELL"

structure SignalWithConfidence where
  signal : Signal
  confidence : ℚ
  rationale : String
deriving DecidableEq

structure DimensionResult where
  name : String
  weight : ℚ
  signal : SignalWithConfidence
  available : Bool
deriving DecidableEq

/-- The per-dimension data payloads of InvestmentReport are never read
or written by the aggregator; they are abstracted as type parameters. -/
structure InvestmentReport (A1 A2 A3 A4 A5 A6 : Type) where
  ticker : String
  company_name : String
  current_price : Option ℚ
  fundamental : Option A1
  technical : Option A2
  options : Option A3
  macroData : Option A4
  sentiment : Option A5
  portfolio : Option A6
  fundamental_signal : Option SignalWithConfidence
  technical_signal : Option SignalWithConfidence
  options_signal : Option SignalWithConfidence
  macro_signal : Option SignalWithConfidence
  sentiment_signal : Option SignalWithConfidence
  portfolio_signal : Option SignalWithConfidence
  dimension_results : List DimensionResult
  overall_signal : Signal
  overall_confidence : ℚ
  overall_score : ℚ
  summary : String

/-- The weights dict, modelled by its values at the six keys the
aggregator queries; a key absent from the dict corresponds to the field
holding 0 (dict.get with default 0). -/
structure Weights where
  fundamental : ℚ
  technical : ℚ
  options : ℚ
  macroSector : ℚ
  sentiment : ℚ
  portfolio : ℚ

def wget (w : Weights) (k : String) : ℚ :=
  if k = "fundamental" then w.fundamental
  else if k = "technical" then w.technical
  else if k = "options" then w.options
  else if k = "macro" then w.macroSector
  else if k = "sentiment" then w.sentiment
  else if k = "portfolio" then w.portfolio
  else 0

def defaultWeights : Weights :=
  { fundamental := 3 / 10, technical := 1 / 5, options := 3 / 20
    macroSector := 3 / 20, sentiment := 1 / 10, portfolio := 1 / 10 }

/-- Python round(x, 4): round half to even at four decimals, modelled
exactly over the rationals. -/
def roundHalfEven (x : ℚ) : ℤ :=
  let f := Int.floor x
  let fr := x - (f : ℚ)
  if fr < 1 / 2 then f
  else if 1 / 2 < fr then f + 1
  else if f % 2 = 0 then f else f + 1

def round4 (x : ℚ) : ℚ := (roundHalfEven (x * 10000) : ℚ) / 10000

variable {A1 A2 A3 A4 A5 A6 : Type}

/-- The fixed dimension list of InvestmentAggregator.aggregate:
display name, weight key, optional signal. -/
def dims (r : InvestmentReport A1 A2 A3 A4 A5 A6) :
    List (String × String × Option SignalWithConfidence) :=
  [("Fundamental", "fundamental", r.fundamental_signal),
   ("Technical", "technical", r.technical_signal),
   ("Options", "options", r.options_signal),
   ("Macro/Sector", "macro", r.macro_signal),
   ("Sentiment", "sentiment", r.sentiment_signal),
   ("Portfolio", "portfolio", r.portfolio_signal)]

def availableDims (r : InvestmentReport A1 A2 A3 A4 A5 A6) :
    List (String × String × SignalWithConfidence) :=
  (dims r).filterMap (fun x => x.2.2.map (fun s => (x.1, x.2.1, s)))

def unavailableDims (r : InvestmentReport A1 A2 A3 A4 A5 A6) : List (String × String) :=
  ((dims r).filter (fun x => x.2.2.isNone)).map (fun x => (x.1, x.2.1))

/-- Sum of the configured base weights of the available dimensions. -/
def totalAvailWeight (w : Weights) (r : InvestmentReport A1 A2 A3 A4 A5 A6) : ℚ :=
  ((availableDims r).map (fun x => wget w x.2.1)).sum

/-- The effective weight assigned to one available dimension. -/
def adjWeight (w : Weights) (total : ℚ) (key : String) : ℚ :=
  if 0 < total then wget w key / total else 0

def build_summary (r : InvestmentReport A1 A2 A3 A4 A5 A6) : String :=
  let bull := r.dimension_results.filter
    (fun d => d.available && decide (1 / 5 < d.signal.signal.numeric))
  let bear := r.dimension_results.filter
    (fun d => d.available && decide (d.signal.signal.numeric < -(1 / 5)))
  let parts := [r.ticker ++ ": " ++ r.overall_signal.value ++ "."]
  let parts := if !bull.isEmpty then
      parts ++ ["Bullish signals from " ++ String.intercalate ", " (bull.map (fun d => d.name)) ++ "."]
    else parts
  let parts := if !bear.isEmpty then
      parts ++ ["Bearish signals from " ++ String.intercalate ", " (bear.map (fun d => d.name)) ++ "."]
    else parts
  let parts := if bull.isEmpty && bear.isEmpty then
      parts ++ ["Mixed or neutral signals across all dimensions."]
    else parts
  String.intercalate " " parts

/-- InvestmentAggregator.aggregate, as a function from the input report
to the mutated report. -/
def aggregate (w : Weights) (r : InvestmentReport A1 A2 A3 A4 A5 A6) :
    InvestmentReport A1 A2 A3 A4 A5 A6 :=
  let avail := availableDims r
  if avail.isEmpty then
    { r with
      overall_signal := .NEUTRAL
      overall_confidence := 0
      overall_score := 0
      summary := "No analysis dimensions available." }
  else
    let total := totalAvailWeight w r
    let results :=
      avail.map (fun x =>
        DimensionResult.mk x.1 (adjWeight w total x.2.1) x.2.2 true) ++
      (unavailableDims r).map (fun x =>
        DimensionResult.mk x.1 (wget w x.2)
          ⟨Signal.NEUTRAL, 0, "Not available"⟩ false)
    let weighted_score :=
      (avail.map (fun x => x.2.2.signal.numeric * adjWeight w total x.2.1)).sum
    let weighted_conf :=
      (avail.map (fun x => x.2.2.confidence * adjWeight w total x.2.1)).sum
    let r1 := { r with
      dimension_results := results
      overall_score := round4 weighted_score
      overall_confidence := round4 weighted_conf
      overall_signal := Signal.fromScore weighted_score }
    { r1 with summary := build_summary r1 }

/-- Sum of the weights of the available entries of dimension_results,
the quantity claim C4 is about. -/
def availWeightSum (r : InvestmentReport A1 A2 A3 A4 A5 A6) : ℚ :=
  ((r.dimension_results.filter (fun d => d.available)).map (fun d => d.weight)).sum

/-! Search index (search/indexer.py).  Embeddings are rational vectors;
a built index carries parallel lists of chunks, report ids and
embedding rows exactly as SearchIndex.build constructs them.  The
query normalisation divides every score by the same query-dependent
constant, the L2 norm of the query plus 1e-10 (a positive real); since
dividing by one positive constant neither changes the ranking nor which
scores are negative infinity, the model ranks the unnormalised dot
products and exposes the divisor separately as queryDenom. -/

structure SearchIndex where
  chunks : List Chunk
  reportIds : List Int
  embeddings : List (List ℚ)

/-- SearchIndex.build from the (chunk, embedding) rows of the store. -/
def buildIndex (rows : List (Chunk × List ℚ)) : SearchIndex :=
  { chunks := rows.map (fun r => r.1)
    reportIds := rows.map (fun r => r.1.report_id)
    embeddings := rows.map (fun r => r.2) }

def dot (a b : List ℚ) : ℚ := (List.zipWith (fun x y => x * y) a b).sum

def sumSq (q : List ℚ) : ℚ := (q.map (fun x => x * x)).sum

/-- The divisor of the query normalisation step: the L2 norm of the
query plus 1e-10.  The square root forces the one real-valued (hence
noncomputable) definition of the model; it is used only to state that
the divisor is positive for every query. -/
noncomputable def queryDenom (q : List ℚ) : ℝ :=
  Real.sqrt ((sumSq q : ℚ) : ℝ) + 1 / 10000000000

/-- A score: either an ordinary similarity or the negative infinity the
mask writes over filtered-out rows. -/
inductive FScore where
  | neginf : FScore
  | val : ℚ → FScore
deriving DecidableEq

def FScore.fle : FScore → FScore → Bool
  | .neginf, _ => true
  | .val _, .neginf => false
  | .val a, .val b => decide (a ≤ b)

def orderedInsert {α : Type} (le : α → α → Bool) (a : α) : List α → List α
  | [] => [a]
  | b :: l => if le a b then a :: b :: l else b :: orderedInsert le a l

/-- Ascending sort; models np.argsort applied to the score vector (the
order among tied scores is unspecified in the source, which uses an
unstable sort; no proved property depends on the tie order). -/
def insertionSort {α : Type} (le : α → α → Bool) : List α → List α
  | [] => []
  | a :: l => orderedInsert le a (insertionSort le l)

def defaultChunk : Chunk := ⟨0, 0, [], none, none, none, false⟩

/-- The masked score of row i: the dot product of row i with the
(un-normalised) query, or negative infinity when a filter is supplied
and the row's report id is not in it. -/
def maskedScore (ix : SearchIndex) (q : List ℚ) (filt : Option (List Int)) (i : Nat) :
    FScore :=
  match filt with
  | none => .val (dot (ix.embeddings.getD i []) q)
  | some f =>
    if f.contains (ix.reportIds.getD i 0) then .val (dot (ix.embeddings.getD i []) q)
    else .neginf

/-- SearchIndex.search: empty index short-circuits; otherwise rank all
rows by masked score descending, take min(top_k, size), and emit the
(chunk, score) pairs whose score is not negative infinity. -/
def search (ix : SearchIndex) (q : List ℚ) (topK : Nat) (filt : Option (List Int)) :
    List (Chunk × ℚ) :=
  if ix.chunks.length = 0 then []
  else
    let n := ix.chunks.length
    let idxs := insertionSort
      (fun i j => FScore.fle (maskedScore ix q filt i) (maskedScore ix q filt j))
      (List.range n)
    let top := idxs.reverse.take (min topK n)
    top.foldl (fun acc i =>
      match maskedScore ix q filt i with
      | .neginf => acc
      | .val s => acc ++ [(ix.chunks.getD i defaultChunk, s)]) []

/-! Concrete inputs used by the witnesses and counterexamples below. -/

/-- The concatenated contents of a chunk list. -/
def chunkContents (cs : List Chunk) : List Char :=
  (cs.map (fun c => c.content)).flatten

/-- An empty report skeleton over trivial data payloads. -/
def emptyReport : InvestmentReport Unit Unit Unit Unit Unit Unit :=
  { ticker := "TST", company_name := "", current_price := none
    fundamental := none, technical := none, options := none
    macroData := none, sentiment := none, portfolio := none
    fundamental_signal := none, technical_signal := none
    options_signal := none, macro_signal := none
    sentiment_signal := none, portfolio_signal := none
    dimension_results := [], overall_signal := Signal.NEUTRAL
    overall_confidence := 0, overall_score := 0, summary := "" }

/-- The report of claim C2: fundamental BUY at confidence 0.8,
technical SELL at confidence 0.7, nothing else. -/
def reportBuySell : InvestmentReport Unit Unit Unit Unit Unit Unit :=
  { emptyReport with
    fundamental_signal := some ⟨Signal.BUY, 4 / 5, ""⟩
    technical_signal := some ⟨Signal.SELL, 7 / 10, ""⟩ }

/-- A report with exactly one available dimension. -/
def reportFundOnly : InvestmentReport Unit Unit Unit Unit Unit Unit :=
  { emptyReport with fundamental_signal := some ⟨Signal.BUY, 1 / 2, ""⟩ }

/-- A report with no available dimension but a nonempty
dimension_results field, to observe the frame condition. -/
def reportNoSignals : InvestmentReport Unit Unit Unit Unit Unit Unit :=
  { emptyReport with
    ticker := "FRM"
    company_name := "Frame Co"
    current_price := some 10
    fundamental := some ()
    dimension_results := [⟨"Stale", 1, ⟨Signal.BUY, 1, ""⟩, true⟩] }

def zeroWeights : Weights := ⟨0, 0, 0, 0, 0, 0⟩

def chunkRep1 : Chunk := ⟨1, 0, ['a'], none, none, none, false⟩

def chunkRep2 : Chunk := ⟨2, 0, ['b'], none, none, none, false⟩

/-- Two indexed rows; the second would outrank the first on the query
[1] but carries report id 2. -/
def rowsEx : List (Chunk × List ℚ) := [(chunkRep1, [1]), (chunkRep2, [2])]

/-! Helper lemmas for the aggregator claims. -/

theorem sum_map_div {α : Type} (l : List α) (f : α → ℚ) (t : ℚ) :
    (l.map (fun x => f x / t)).sum = (l.map f).sum / t := by
  induction l with
  | nil => simp
  | cons a l ih => simp [ih, add_div]

theorem avail_weight_sum_avail (w : Weights) (t : ℚ)
    (l : List (String × String × SignalWithConfidence)) :
    ((((l.map (fun x => DimensionResult.mk x.1 (adjWeight w t x.2.1) x.2.2 true))).filter
        (fun d => d.available)).map (fun d => d.weight)).sum =
    (l.map (fun x => adjWeight w t x.2.1)).sum := by
  induction l with
  | nil => rfl
  | cons a l ih => simp [ih]

theorem avail_weight_sum_unavail (w : Weights) (l : List (String × String)) :
    ((((l.map (fun x => DimensionResult.mk x.1 (wget w x.2)
        ⟨Signal.NEUTRAL, 0, "Not available"⟩ false))).filter
        (fun d => d.available)).map (fun d => d.weight)).sum = 0 := by
  induction l with
  | nil => rfl
  | cons a l ih => simp [ih]

theorem adjWeight_sum (w : Weights) (t : ℚ) (ht : 0 < t)
    (l : List (String × String × SignalWithConfidence)) :
    (l.map (fun x => adjWeight w t x.2.1)).sum =
    (l.map (fun x => wget w x.2.1)).sum / t := by
  have he : (fun x : String × String × SignalWithConfidence => adjWeight w t x.2.1) =
      (fun x : String × String × SignalWithConfidence => wget w x.2.1 / t) := by
    funext x
    simp [adjWeight, if_pos ht]
  rw [he, sum_map_div]

theorem totalAvailWeight_of_nil {A1 A2 A3 A4 A5 A6 : Type} (w : Weights)
    (r : InvestmentReport A1 A2 A3 A4 A5 A6) (h : availableDims r = []) :
    totalAvailWeight w r = 0 := by
  rw [totalAvailWeight, h]; rfl

/-- C4 (amended): for every weight configuration, whenever the sum of
the base weights of the available dimensions is positive, the effective
weights the aggregator assigns to the available dimensions sum to
exactly 1. -/
theorem C4_effective_weights_sum_to_one {A1 A2 A3 A4 A5 A6 : Type} (w : Weights)
    (r : InvestmentReport A1 A2 A3 A4 A5 A6) (h : 0 < totalAvailWeight w r) :
    availWeightSum (aggregate w r) = 1 := by
  have hne : availableDims r ≠ [] := by
    intro he
    rw [totalAvailWeight_of_nil w r he] at h
    exact lt_irrefl 0 h
  have hie : ¬ ((availableDims r).isEmpty = true) := by
    simpa [List.isEmpty_iff] using hne
  unfold aggregate
  rw [if_neg hie]
  simp only [availWeightSum, List.filter_append, List.map_append, List.sum_append]
  rw [avail_weight_sum_avail, avail_weight_sum_unavail,
    adjWeight_sum w (totalAvailWeight w r) h (availableDims r)]
  rw [show ((availableDims r).map
      (fun x : String × String × SignalWithConfidence => wget w x.2.1)).sum =
      totalAvailWeight w r from rfl]
  rw [div_self (ne_of_gt h), add_zero]

/-- C4 counterexample: with every base weight zero and one available
dimension (so at least one dimension is available), the effective
weights of the available entries of dimension_results sum to 0, not 1:
the claim as stated fails when the total available base weight is not
positive. -/
theorem C4_counterexample_zero_weights :
    availableDims reportFundOnly ≠ [] ∧
    availWeightSum (aggregate zeroWeights reportFundOnly) ≠ 1 := by
  constructor
  · simp [availableDims, dims, reportFundOnly, emptyReport]
  · simp [aggregate, availableDims, unavailableDims, dims, reportFundOnly, emptyReport,
      totalAvailWeight, adjWeight, wget, zeroWeights, availWeightSum, round4,
      roundHalfEven, Signal.fromScore, Signal.numeric]

/-- C4 witness: the default weights with the two-dimension report give
a positive total available weight, and the effective weights then sum
to 1. -/
theorem C4_witness :
    0 < totalAvailWeight defaultWeights reportBuySell ∧
    availWeightSum (aggregate defaultWeights reportBuySell) = 1 := by
  have h : 0 < totalAvailWeight defaultWeights reportBuySell := by
    simp [totalAvailWeight, availableDims, dims, reportBuySell, emptyReport, wget,
      defaultWeights]
    norm_num
  exact ⟨h, C4_effective_weights_sum_to_one defaultWeights reportBuySell h⟩

/-- C3 (amended): when exactly one dimension carries a signal and that
dimension's configured base weight is positive, its effective weight in
dimension_results is 1 regardless of the weight's magnitude; without
positivity the aggregator assigns 0 instead. -/
theorem C3_single_dimension_full_weight {A1 A2 A3 A4 A5 A6 : Type} (w : Weights)
    (r : InvestmentReport A1 A2 A3 A4 A5 A6)
    (hone : (availableDims r).length = 1) (hpos : 0 < totalAvailWeight w r) :
    ∀ d ∈ (aggregate w r).dimension_results, d.available = true → d.weight = 1 := by
  obtain ⟨a, ha⟩ := List.length_eq_one.mp hone
  have hne : ¬ ((availableDims r).isEmpty = true) := by
    simp [ha]
  have htot : totalAvailWeight w r = wget w a.2.1 := by
    rw [totalAvailWeight, ha]; simp
  intro d hd hav
  rw [aggregate, if_neg hne] at hd
  simp only [List.mem_append, ha, List.map_cons, List.map_nil, List.mem_singleton] at hd
  rcases hd with hd | hd
  · have hpos2 : 0 < wget w a.2.1 := by rw [htot] at hpos; exact hpos
    rw [hd]
    show adjWeight w (totalAvailWeight w r) a.2.1 = 1
    rw [adjWeight, if_pos hpos, htot]
    exact div_self (ne_of_gt hpos2)
  · exfalso
    obtain ⟨x, _, hx⟩ := List.mem_map.mp hd
    rw [← hx] at hav
    simp at hav

/-- C3 counterexample: with the only available dimension configured at
base weight 0, its entry in dimension_results carries effective weight
0, not 1: the claim fails for weight configurations whose base weight
for that dimension is not positive. -/
theorem C3_counterexample_zero_base_weight :
    ¬ (∀ d ∈ (aggregate zeroWeights reportFundOnly).dimension_results,
        d.available = true → d.weight = 1) := by
  intro h
  have hm : (⟨"Fundamental", 0, ⟨Signal.BUY, 1 / 2, ""⟩, true⟩ : DimensionResult) ∈
      (aggregate zeroWeights reportFundOnly).dimension_results := by
    simp [aggregate, availableDims, unavailableDims, dims, reportFundOnly, emptyReport,
      totalAvailWeight, adjWeight, wget, zeroWeights]
  exact absurd (h _ hm rfl) (by norm_num)

/-- C3 witness: with the default weights and only the fundamental
signal present, the fundamental entry gets effective weight 1 even
though its base weight is 0.3. -/
theorem C3_witness :
    (availableDims reportFundOnly).length = 1 ∧
    0 < totalAvailWeight defaultWeights reportFundOnly ∧
    ∀ d ∈ (aggregate defaultWeights reportFundOnly).dimension_results,
      d.available = true → d.weight = 1 := by
  have h1 : (availableDims reportFundOnly).length = 1 := by
    simp [availableDims, dims, reportFundOnly, emptyReport]
  have h2 : 0 < totalAvailWeight defaultWeights reportFundOnly := by
    simp [totalAvailWeight, availableDims, dims, reportFundOnly, emptyReport, wget,
      defaultWeights]
  exact ⟨h1, h2, C3_single_dimension_full_weight defaultWeights reportFundOnly h1 h2⟩

/-- C2 counterexample: on the claim's own scenario (fundamental BUY at
0.8, technical SELL at 0.7, default weights) the overall score is not
0.067: the claimed expression 0.30/0.50*0.67 + 0.20/0.50*(-0.67)
evaluates to 0.134, not 0.067. -/
theorem C2_counterexample_score :
    (aggregate defaultWeights reportBuySell).overall_score ≠ 67 / 1000 := by
  simp [aggregate, availableDims, unavailableDims, dims, totalAvailWeight, adjWeight,
    wget, round4, roundHalfEven, Signal.fromScore, Signal.numeric, defaultWeights,
    reportBuySell, emptyReport]
  norm_num

/-- C2 (amended): in the claim's scenario the overall score equals
0.30/0.50*0.67 + 0.20/0.50*(-0.67) = 0.134 and the overall signal is
NEUTRAL. -/
theorem C2_buy_sell_scenario :
    (aggregate defaultWeights reportBuySell).overall_score =
      (3 / 10) / (1 / 2) * (67 / 100) + (2 / 10) / (1 / 2) * (-(67 / 100)) ∧
    (aggregate defaultWeights reportBuySell).overall_score = 134 / 1000 ∧
    (aggregate defaultWeights reportBuySell).overall_signal = Signal.NEUTRAL := by
  refine ⟨?_, ?_, ?_⟩ <;>
    (simp [aggregate, availableDims, unavailableDims, dims, totalAvailWeight, adjWeight,
      wget, round4, roundHalfEven, Signal.fromScore, Signal.numeric, defaultWeights,
      reportBuySell, emptyReport]; norm_num)

/-- C10: aggregate only writes the derived fields: the ticker, company
name, price, the six per-dimension data fields and the six per-dimension
input signal fields are returned unchanged; and when no dimension is
available, dimension_results is unchanged as well. -/
theorem C10_aggregate_frame {A1 A2 A3 A4 A5 A6 : Type} (w : Weights)
    (r : InvestmentReport A1 A2 A3 A4 A5 A6) :
    (aggregate w r).ticker = r.ticker ∧
    (aggregate w r).company_name = r.company_name ∧
    (aggregate w r).current_price = r.current_price ∧
    (aggregate w r).fundamental = r.fundamental ∧
    (aggregate w r).technical = r.technical ∧
    (aggregate w r).options = r.options ∧
    (aggregate w r).macroData = r.macroData ∧
    (aggregate w r).sentiment = r.sentiment ∧
    (aggregate w r).portfolio = r.portfolio ∧
    (aggregate w r).fundamental_signal = r.fundamental_signal ∧
    (aggregate w r).technical_signal = r.technical_signal ∧
    (aggregate w r).options_signal = r.options_signal ∧
    (aggregate w r).macro_signal = r.macro_signal ∧
    (aggregate w r).sentiment_signal = r.sentiment_signal ∧
    (aggregate w r).portfolio_signal = r.portfolio_signal ∧
    (availableDims r = [] → (aggregate w r).dimension_results = r.dimension_results) := by
  unfold aggregate
  by_cases he : (availableDims r).isEmpty = true
  · rw [if_pos he]
    refine ⟨rfl, rfl, rfl, rfl, rfl, rfl, rfl, rfl, rfl, rfl, rfl, rfl, rfl, rfl, rfl, ?_⟩
    intro _
    rfl
  · rw [if_neg he]
    refine ⟨rfl, rfl, rfl, rfl, rfl, rfl, rfl, rfl, rfl, rfl, rfl, rfl, rfl, rfl, rfl, ?_⟩
    intro hc
    exact absurd (by simp [hc] : (availableDims r).isEmpty = true) he

/-- C10 witness: on a report with no available dimensions and a
nonempty stale dimension_results field, aggregate leaves
dimension_results and the input fields untouched. -/
theorem C10_witness :
    (aggregate zeroWeights reportNoSignals).dimension_results =
      reportNoSignals.dimension_results ∧
    (aggregate zeroWeights reportNoSignals).ticker = reportNoSignals.ticker ∧
    (aggregate zeroWeights reportNoSignals).fundamental = reportNoSignals.fundamental := by
  have h := C10_aggregate_frame zeroWeights reportNoSignals
  exact ⟨h.2.2.2.2.2.2.2.2.2.2.2.2.2.2.2 rfl, h.1, h.2.2.2.1⟩

/-! Helper lemmas for the search claims. -/

theorem mem_orderedInsert {α : Type} (le : α → α → Bool) (a b : α) (l : List α) :
    b ∈ orderedInsert le a l ↔ b = a ∨ b ∈ l := by
  induction l with
  | nil => simp [orderedInsert]
  | cons c l ih =>
    by_cases h : le a c = true
    · simp [orderedInsert, h]
    · simp [orderedInsert, h, ih]
      tauto

theorem mem_insertionSort {α : Type} (le : α → α → Bool) (b : α) (l : List α) :
    b ∈ insertionSort le l ↔ b ∈ l := by
  induction l with
  | nil => simp [insertionSort]
  | cons a l ih => simp [insertionSort, mem_orderedInsert, ih]

/-- The result accumulation loop of search: every element of the result
either was in the accumulator or stems from a ranked index with a
non-masked score. -/
theorem search_fold_mem (ix : SearchIndex) (q : List ℚ) (filt : Option (List Int))
    (x : Chunk × ℚ) :
    ∀ (top : List Nat) (acc : List (Chunk × ℚ)),
      x ∈ top.foldl (fun acc i =>
        match maskedScore ix q filt i with
        | .neginf => acc
        | .val s => acc ++ [(ix.chunks.getD i defaultChunk, s)]) acc →
      x ∈ acc ∨ ∃ i ∈ top, maskedScore ix q filt i = .val x.2 ∧
        x.1 = ix.chunks.getD i defaultChunk := by
  intro top
  induction top with
  | nil => intro acc h; exact Or.inl h
  | cons i rest ih =>
    intro acc h
    simp only [List.foldl_cons] at h
    rcases hs : maskedScore ix q filt i with _ | s
    · rw [hs] at h
      rcases ih acc h with h1 | ⟨j, hj, hj2⟩
      · exact Or.inl h1
      · exact Or.inr ⟨j, List.mem_cons_of_mem i hj, hj2⟩
    · rw [hs] at h
      rcases ih (acc ++ [(ix.chunks.getD i defaultChunk, s)]) h with h1 | ⟨j, hj, hj2⟩
      · rcases List.mem_append.mp h1 with h2 | h2
        · exact Or.inl h2
        · rcases List.mem_singleton.mp h2 with h3
          refine Or.inr ⟨i, List.mem_cons_self i rest, ?_, ?_⟩
          · rw [h3, hs]
          · rw [h3]
      · exact Or.inr ⟨j, List.mem_cons_of_mem i hj, hj2⟩

theorem search_fold_len (ix : SearchIndex) (q : List ℚ) (filt : Option (List Int)) :
    ∀ (top : List Nat) (acc : List (Chunk × ℚ)),
      (top.foldl (fun acc i =>
        match maskedScore ix q filt i with
        | .neginf => acc
        | .val s => acc ++ [(ix.chunks.getD i defaultChunk, s)]) acc).length ≤
      acc.length + top.length := by
  intro top
  induction top with
  | nil => intro acc; simp
  | cons i rest ih =>
    intro acc
    simp only [List.foldl_cons, List.length_cons]
    rcases hs : maskedScore ix q filt i with _ | s
    · calc (rest.foldl _ acc).length ≤ acc.length + rest.length := ih acc
        _ ≤ acc.length + (rest.length + 1) := by omega
    · calc (rest.foldl _ (acc ++ [(ix.chunks.getD i defaultChunk, s)])).length
          ≤ (acc ++ [(ix.chunks.getD i defaultChunk, s)]).length + rest.length := ih _
        _ = acc.length + (rest.length + 1) := by simp; omega

/-- In a built index the chunk list and the report id list stay aligned:
the report id column at any in-range position is the report id of the
chunk at that position. -/
theorem buildIndex_aligned (rows : List (Chunk × List ℚ)) :
    ∀ i, i < rows.length →
      ((buildIndex rows).chunks.getD i defaultChunk).report_id =
      (buildIndex rows).reportIds.getD i 0 := by
  intro i hi
  induction rows generalizing i with
  | nil => simp at hi
  | cons r rows ih =>
    cases i with
    | zero => rfl
    | succ j =>
      simp only [List.length_cons, Nat.succ_lt_succ_iff] at hi
      exact ih j hi

/-- C5: for every built index, query, top_k and filter set, every
(chunk, score) pair returned by search has its chunk's report id in the
filter set. -/
theorem C5_filter_respected (rows : List (Chunk × List ℚ)) (q : List ℚ) (topK : Nat)
    (f : List Int) (c : Chunk) (s : ℚ)
    (h : (c, s) ∈ search (buildIndex rows) q topK (some f)) :
    c.report_id ∈ f := by
  rw [search] at h
  by_cases hz : (buildIndex rows).chunks.length = 0
  · rw [if_pos hz] at h
    simp at h
  · rw [if_neg hz] at h
    rcases search_fold_mem (buildIndex rows) q (some f) (c, s) _ [] h with h1 | ⟨i, hi, hval, hc⟩
    · simp at h1
    · have hin : i < (buildIndex rows).chunks.length := by
        have h2 : i ∈ List.range (buildIndex rows).chunks.length := by
          have h3 := List.mem_of_mem_take hi
          rw [List.mem_reverse, mem_insertionSort] at h3
          exact h3
        exact List.mem_range.mp h2
      have hlen : (buildIndex rows).chunks.length = rows.length := by
        simp [buildIndex]
      have hcontains : f.contains ((buildIndex rows).reportIds.getD i 0) = true := by
        rw [maskedScore] at hval
        by_cases hcf : f.contains ((buildIndex rows).reportIds.getD i 0) = true
        · exact hcf
        · rw [if_neg hcf] at hval
          exact absurd hval (by simp)
      have hrid : c.report_id = (buildIndex rows).reportIds.getD i 0 := by
        rw [show c = (buildIndex rows).chunks.getD i defaultChunk from hc]
        exact buildIndex_aligned rows i (hlen ▸ hin)
      rw [hrid]
      exact (List.elem_iff).mp hcontains

/-- C5 witness: a two-row index where the out-of-filter row would
outrank the in-filter row; the search result is the in-filter chunk and
its report id is in the filter. -/
theorem C5_witness :
    (chunkRep1, (1 : ℚ)) ∈ search (buildIndex rowsEx) [1] 2 (some [1]) ∧
    chunkRep1.report_id ∈ [(1 : Int)] := by
  have hm : (chunkRep1, (1 : ℚ)) ∈ search (buildIndex rowsEx) [1] 2 (some [1]) := by
    simp [search, buildIndex, rowsEx, insertionSort, orderedInsert, FScore.fle,
      maskedScore, dot, chunkRep1, chunkRep2, List.range_succ]
  exact ⟨hm, C5_filter_respected rowsEx [1] 2 [1] chunkRep1 1 hm⟩

/-- C9: search is total over query vectors: the normalisation divisor,
the query norm plus 1e-10, is positive for every query (the all-zero
query included), and the result is always a well-defined list of at
most top_k hits. -/
theorem C9_search_total (q : List ℚ) (ix : SearchIndex) (topK : Nat)
    (filt : Option (List Int)) :
    0 < queryDenom q ∧ (search ix q topK filt).length ≤ topK := by
  constructor
  · have h1 : (0 : ℝ) ≤ Real.sqrt ((sumSq q : ℚ) : ℝ) := Real.sqrt_nonneg _
    rw [queryDenom]
    positivity
  · rw [search]
    by_cases hz : ix.chunks.length = 0
    · rw [if_pos hz]; simp
    · rw [if_neg hz]
      calc ((List.range ix.chunks.length |> insertionSort _ |>.reverse).take
              (min topK ix.chunks.length) |>.foldl _ []).length
          ≤ 0 + ((List.range ix.chunks.length |> insertionSort _ |>.reverse).take
              (min topK ix.chunks.length)).length := search_fold_len ix q filt _ []
        _ ≤ min topK ix.chunks.length := by
            rw [Nat.zero_add]
            exact (List.length_take_le _ _)
        _ ≤ topK := Nat.min_le_left _ _

/-! Whitespace bookkeeping lemmas for the chunker claims. -/

theorem nonWS_append (a b : List Char) : nonWS (a ++ b) = nonWS a ++ nonWS b := by
  simp [nonWS]

theorem nonWS_reverse (l : List Char) : nonWS l.reverse = (nonWS l).reverse := by
  simp [nonWS]

theorem nonWS_cons_ws {c : Char} (l : List Char) (h : isWS c = true) :
    nonWS (c :: l) = nonWS l := by
  simp [nonWS, h]

theorem nonWS_cons_not {c : Char} (l : List Char) (h : isWS c = false) :
    nonWS (c :: l) = c :: nonWS l := by
  simp [nonWS, h]

theorem nonWS_allWS (l : List Char) (h : ∀ c ∈ l, isWS c = true) : nonWS l = [] := by
  induction l with
  | nil => rfl
  | cons c r ih =>
    rw [nonWS_cons_ws r (h c (List.mem_cons_self c r))]
    exact ih (fun d hd => h d (List.mem_cons_of_mem c hd))

theorem nonWS_dropWhile (l : List Char) : nonWS (l.dropWhile isWS) = nonWS l := by
  induction l with
  | nil => rfl
  | cons c r ih =>
    by_cases h : isWS c = true
    · rw [List.dropWhile_cons_of_pos h, ih, nonWS_cons_ws r h]
    · rw [List.dropWhile_cons_of_neg (by simp [h])]

theorem nonWS_pstrip (l : List Char) : nonWS (pstrip l) = nonWS l := by
  rw [pstrip, nonWS_reverse, nonWS_dropWhile, nonWS_reverse, List.reverse_reverse,
    nonWS_dropWhile]

theorem mem_of_mem_takeWhile {α : Type} {p : α → Bool} {c : α} :
    ∀ {l : List α}, c ∈ l.takeWhile p → c ∈ l := by
  intro l
  induction l with
  | nil => intro h; exact absurd h (by simp)
  | cons a r ih =>
    intro h
    by_cases ha : p a = true
    · rw [List.takeWhile_cons_of_pos ha] at h
      rcases List.mem_cons.mp h with h1 | h1
      · exact h1 ▸ List.mem_cons_self a r
      · exact List.mem_cons_of_mem a (ih h1)
    · rw [List.takeWhile_cons_of_neg (by simp [ha])] at h
      exact absurd h (by simp)

theorem pstrip_eq_nil_nonWS {l : List Char} (h : pstrip l = []) : nonWS l = [] := by
  rw [← nonWS_pstrip, h]
  rfl

theorem dropWhile_head_false {α : Type} {p : α → Bool} :
    ∀ {l : List α} {h : α} {t : List α}, l.dropWhile p = h :: t → p h = false := by
  intro l
  induction l with
  | nil => intro h t he; exact absurd he (by simp)
  | cons a r ih =>
    intro h t he
    by_cases ha : p a = true
    · rw [List.dropWhile_cons_of_pos ha] at he
      exact ih he
    · rw [List.dropWhile_cons_of_neg (by simp [ha])] at he
      have hah : a = h := (List.cons.injEq a r h t ▸ he).1
      rw [hah] at ha
      simpa using ha

theorem pstrip_ne_nil_nonWS {l : List Char} (h : pstrip l ≠ []) : nonWS l ≠ [] := by
  rcases he : (((l.dropWhile isWS).reverse).dropWhile isWS) with _ | ⟨c, t⟩
  · exact absurd (by rw [pstrip, he]; rfl) h
  · have hc : isWS c = false := dropWhile_head_false he
    have hmem : c ∈ l := by
      have h1 : c ∈ ((l.dropWhile isWS).reverse).dropWhile isWS := by
        rw [he]; exact List.mem_cons_self c t
      have h2 : c ∈ (l.dropWhile isWS).reverse :=
        (List.dropWhile_sublist _).mem h1
      exact (List.dropWhile_sublist isWS).mem (List.mem_reverse.mp h2)
    intro hnil
    have : c ∈ nonWS l := List.mem_filter.mpr ⟨hmem, by simp [hc]⟩
    rw [hnil] at this
    exact absurd this (by simp)

theorem allWS_reverse {run : List Char} (h : ∀ c ∈ run, isWS c = true) :
    ∀ c ∈ run.reverse, isWS c = true := by
  intro c hc
  exact h c (List.mem_reverse.mp hc)

theorem allWS_takeWhile {run : List Char} (q : Char → Bool)
    (h : ∀ c ∈ run, isWS c = true) : ∀ c ∈ run.takeWhile q, isWS c = true := by
  intro c hc
  exact h c (mem_of_mem_takeWhile hc)

/-- Content preservation of the paragraph splitter: joining the pieces
loses only whitespace, given that the run buffer holds only whitespace. -/
theorem splitParasGo_flatten_nonWS :
    ∀ (l p run : List Char), (∀ c ∈ run, isWS c = true) →
      nonWS (splitParasGo p run l).flatten = nonWS p.reverse ++ nonWS l := by
  intro l
  induction l with
  | nil =>
    intro p run hrun
    by_cases h2 : 2 ≤ nlCount run
    · have hx : nonWS (run.reverse.takeWhile (fun c => !(c == '\n'))) = [] :=
        nonWS_allWS _ (allWS_takeWhile _ (allWS_reverse hrun))
      have hy : nonWS ((run.takeWhile (fun c => !(c == '\n'))).reverse) = [] := by
        rw [nonWS_reverse, nonWS_allWS _ (allWS_takeWhile _ hrun)]
        rfl
      simp only [splitParasGo, if_pos h2, List.flatten, nonWS_append, hx, hy]
      simp
    · have hr : nonWS run.reverse = [] := nonWS_allWS _ (allWS_reverse hrun)
      simp only [splitParasGo, if_neg h2, List.flatten, nonWS_append, hr]
      simp
  | cons c rest ih =>
    intro p run hrun
    by_cases hc : isWS c = true
    · have hrun2 : ∀ d ∈ c :: run, isWS d = true := by
        intro d hd
        rcases List.mem_cons.mp hd with h1 | h1
        · rw [h1]; exact hc
        · exact hrun d h1
      simp only [splitParasGo, hc, if_true]
      rw [ih p (c :: run) hrun2, nonWS_cons_ws rest hc]
    · have hcb : isWS c = false := by simp [hc]
      have hc1 : nonWS [c] = [c] := by simp [nonWS, hcb]
      have hc2 : nonWS (c :: rest) = c :: nonWS rest := nonWS_cons_not rest hcb
      by_cases h2 : 2 ≤ nlCount run
      · have hx : nonWS (run.reverse.takeWhile (fun c => !(c == '\n'))) = [] :=
          nonWS_allWS _ (allWS_takeWhile _ (allWS_reverse hrun))
        have hpost : nonWS ((run.takeWhile (fun c => !(c == '\n')))) = [] :=
          nonWS_allWS _ (allWS_takeWhile _ hrun)
        simp only [splitParasGo, hcb, Bool.false_eq_true, if_false, if_pos h2,
          List.flatten_cons, nonWS_append, hx]
        rw [ih (c :: run.takeWhile (fun c => !(c == '\n'))) [] (by intro d hd; simp at hd)]
        simp [List.reverse_cons, nonWS_append, nonWS_reverse, hpost, hc1, hc2]
      · have hr : nonWS run = [] := nonWS_allWS run hrun
        simp only [splitParasGo, hcb, Bool.false_eq_true, if_false, if_neg h2]
        rw [ih (c :: (run ++ p)) [] (by intro d hd; simp at hd)]
        simp [List.reverse_cons, List.reverse_append, nonWS_append, nonWS_reverse,
          hr, hc1, hc2]

theorem splitParas_flatten_nonWS (l : List Char) :
    nonWS (splitParas l).flatten = nonWS l := by
  rw [splitParas, splitParasGo_flatten_nonWS l [] [] (by intro d hd; simp at hd)]
  rfl

theorem nonWS_nil : nonWS [] = [] := rfl

theorem nonWS_cons (c : Char) (l : List Char) :
    nonWS (c :: l) = nonWS [c] ++ nonWS l := by
  by_cases h : isWS c = true
  · rw [nonWS_cons_ws l h, nonWS_cons_ws [] h, nonWS_nil, List.nil_append]
  · have hb : isWS c = false := by simp [h]
    rw [nonWS_cons_not l hb, nonWS_cons_not [] hb, nonWS_nil]
    rfl

/-- Content preservation of the sentence splitter. -/
theorem splitSentGo_flatten_nonWS :
    ∀ (l p run : List Char), (∀ c ∈ run, isWS c = true) →
      nonWS (splitSentGo p run l).flatten = nonWS p.reverse ++ nonWS l := by
  intro l
  induction l with
  | nil =>
    intro p run hrun
    have hr : nonWS run.reverse = [] := nonWS_allWS _ (allWS_reverse hrun)
    cases p with
    | nil => simp [splitSentGo, hr, nonWS_nil]
    | cons h t =>
      by_cases hcond : (!run.isEmpty && isSentEnd h) = true
      · simp [splitSentGo, hcond, nonWS_nil]
      · simp only [splitSentGo, hcond, Bool.false_eq_true, if_false]
        simp [nonWS_append, hr, nonWS_nil]
        rw [nonWS_cons h run.reverse]
        simp [hr]
  | cons c rest ih =>
    intro l_ih_p run hrun
    by_cases hc : isWS c = true
    · have hrun2 : ∀ d ∈ c :: run, isWS d = true := by
        intro d hd
        rcases List.mem_cons.mp hd with h1 | h1
        · rw [h1]; exact hc
        · exact hrun d h1
      simp only [splitSentGo, hc, if_true]
      rw [ih l_ih_p (c :: run) hrun2, nonWS_cons_ws rest hc]
    · have hcb : isWS c = false := by simp [hc]
      have hc1 : nonWS [c] = [c] := by simp [nonWS, hcb]
      have hc2 : nonWS (c :: rest) = c :: nonWS rest := nonWS_cons_not rest hcb
      have hr : nonWS run = [] := nonWS_allWS run hrun
      have hrrev : nonWS run.reverse = [] := nonWS_allWS _ (allWS_reverse hrun)
      have hnil : ∀ d ∈ ([] : List Char), isWS d = true := by intro d hd; simp at hd
      cases l_ih_p with
      | nil =>
        simp only [splitSentGo, hcb, Bool.false_eq_true, if_false]
        rw [ih (c :: (run ++ [])) [] hnil]
        simp [List.reverse_cons, List.reverse_append, nonWS_append, nonWS_reverse,
          hr, hc1, hc2, nonWS_nil]
      | cons h t =>
        by_cases hcond : (!run.isEmpty && isSentEnd h) = true
        · simp only [splitSentGo, hcb, Bool.false_eq_true, if_false, hcond, if_true,
            List.flatten_cons, nonWS_append]
          rw [ih [c] [] hnil]
          simp [List.reverse_cons, nonWS_append, hc1, hc2, nonWS_nil]
        · simp only [splitSentGo, hcb, Bool.false_eq_true, if_false, hcond]
          rw [ih (c :: (run ++ h :: t)) [] hnil]
          simp [List.reverse_cons, List.reverse_append, nonWS_append, nonWS_reverse,
            hr, hc1, hc2, nonWS_nil]
          rw [nonWS_cons h (run.reverse ++ [c])]
          simp [nonWS_append, hrrev, hc1]

theorem splitSentences_flatten_nonWS (l : List Char) :
    nonWS (splitSentences l).flatten = nonWS l := by
  rw [splitSentences, splitSentGo_flatten_nonWS l [] [] (by intro d hd; simp at hd)]
  rfl

theorem splitOnNl_ne_nil (l : List Char) : splitOnNl l ≠ [] := by
  cases l with
  | nil => simp [splitOnNl]
  | cons c r =>
    by_cases h : (c == '\n') = true
    · simp [splitOnNl, h]
    · rcases he : splitOnNl r with _ | ⟨hh, t⟩
      · simp [splitOnNl, h, he]
      · simp [splitOnNl, h, he]

theorem splitOnNl_flatten_nonWS (l : List Char) :
    nonWS (splitOnNl l).flatten = nonWS l := by
  induction l with
  | nil => rfl
  | cons c r ih =>
    by_cases h : (c == '\n') = true
    · have hceq : c = '\n' := by simpa using h
      have hws : isWS c = true := by rw [hceq]; rfl
      simp only [splitOnNl, h, if_true, List.flatten_cons, List.nil_append]
      rw [ih, nonWS_cons_ws r hws]
    · rcases he : splitOnNl r with _ | ⟨hh, t⟩
      · exact absurd he (splitOnNl_ne_nil r)
      · have hfl : nonWS (hh ++ t.flatten) = nonWS r := by
          have h2 := ih
          rw [he, List.flatten_cons, nonWS_append] at h2
          rw [nonWS_append]
          exact h2
        simp only [splitOnNl, h, Bool.false_eq_true, if_false, he, List.flatten_cons]
        by_cases hw : isWS c = true
        · rw [List.cons_append, nonWS_cons_ws _ hw, nonWS_cons_ws r hw, hfl]
        · have hwb : isWS c = false := by simp [hw]
          rw [List.cons_append, nonWS_cons_not _ hwb, nonWS_cons_not r hwb, hfl]

theorem splitEveryGo_flatten (k : Nat) (hk : 1 ≤ k) :
    ∀ (fuel : Nat) (l : List Char), l.length ≤ fuel →
      (splitEveryGo fuel k l).flatten = l := by
  intro fuel
  induction fuel with
  | zero =>
    intro l hl
    have : l = [] := List.length_eq_zero.mp (Nat.le_zero.mp hl)
    rw [this]
    rfl
  | succ fuel ih =>
    intro l hl
    cases l with
    | nil => rfl
    | cons c r =>
      have hne : ((c :: r).isEmpty = true) = False := by simp
      simp only [splitEveryGo, hne, if_false, List.flatten_cons]
      rw [ih ((c :: r).drop k) (by
        rw [List.length_drop, List.length_cons]
        simp only [List.length_cons] at hl
        omega)]
      exact List.take_append_drop k (c :: r)

theorem splitEvery_flatten (k : Nat) (hk : 1 ≤ k) (l : List Char) :
    (splitEvery k l).flatten = l :=
  splitEveryGo_flatten k hk l.length l (le_refl _)

theorem glueStep_nonWS (mx : Nat) (st : List (List Char) × List Char) (s : List Char) :
    nonWS (glueStep mx st s).1.flatten ++ nonWS (glueStep mx st s).2 =
    nonWS st.1.flatten ++ nonWS st.2 ++ nonWS s := by
  rw [glueStep]
  by_cases hcond : mx < estimate_tokens (st.2 ++ [' '] ++ s) ∧ st.2 ≠ []
  · rw [if_pos hcond]
    simp [List.flatten_append, nonWS_append, nonWS_pstrip]
  · rw [if_neg hcond]
    by_cases hc2 : st.2 ≠ []
    · simp only [if_pos hc2]
      have hsp : nonWS [' '] = [] := rfl
      simp [nonWS_pstrip, nonWS_append, hsp]
      exact nonWS_cons_ws s rfl
    · simp only [if_neg hc2]
      have h2 : st.2 = [] := by
        by_contra hne
        exact hc2 hne
      rw [h2, nonWS_nil]
      simp

theorem glue_fold_nonWS (mx : Nat) :
    ∀ (sents : List (List Char)) (st : List (List Char) × List Char),
      nonWS (sents.foldl (glueStep mx) st).1.flatten ++
        nonWS (sents.foldl (glueStep mx) st).2 =
      nonWS st.1.flatten ++ nonWS st.2 ++ nonWS sents.flatten := by
  intro sents
  induction sents with
  | nil => intro st; simp [nonWS_nil]
  | cons s rest ih =>
    intro st
    simp only [List.foldl_cons, List.flatten_cons]
    rw [ih (glueStep mx st s), glueStep_nonWS mx st s]
    simp [nonWS_append]

theorem glue_nonWS (mx : Nat) (sents : List (List Char)) :
    nonWS (glue mx sents).flatten = nonWS sents.flatten := by
  rw [glue]
  have h := glue_fold_nonWS mx sents ([], [])
  simp only [List.flatten_nil, nonWS_nil, List.nil_append] at h
  by_cases hp : pstrip (sents.foldl (glueStep mx) ([], [])).2 ≠ []
  · simp only [if_pos hp]
    rw [List.flatten_append]
    simp only [List.flatten_cons, List.flatten_nil, List.append_nil, nonWS_append,
      nonWS_pstrip]
    exact h
  · simp only [if_neg hp]
    have hnil : pstrip (sents.foldl (glueStep mx) ([], [])).2 = [] := by
      by_contra hne
      exact hp hne
    have hz : nonWS (sents.foldl (glueStep mx) ([], [])).2 = [] :=
      pstrip_eq_nil_nonWS hnil
    rw [hz, List.append_nil] at h
    exact h

theorem split_large_block_nonWS (mx : Nat) (hmx : 1 ≤ mx) (t : List Char) :
    nonWS (split_large_block mx t).flatten = nonWS t := by
  simp only [split_large_block]
  have hk : 1 ≤ maxChars mx := by
    rw [maxChars]
    omega
  by_cases hs1 : (splitSentences t).length ≤ 1
  · simp only [if_pos hs1]
    by_cases hs2 : (splitOnNl t).length ≤ 1
    · simp only [if_pos hs2]
      rw [splitEvery_flatten (maxChars mx) hk t]
    · simp only [if_neg hs2]
      rw [glue_nonWS, splitOnNl_flatten_nonWS]
  · simp only [if_neg hs1]
    rw [glue_nonWS, splitSentences_flatten_nonWS]

theorem chunkContents_append (a b : List Chunk) :
    chunkContents (a ++ b) = chunkContents a ++ chunkContents b := by
  simp [chunkContents]

theorem chunkContents_single (c : Chunk) : chunkContents [c] = c.content := by
  simp [chunkContents]

theorem make_chunk_content (t : List Char) (rid : Int) (i s : Nat) (po : List Nat) :
    (make_chunk t rid i s po).content = t := rfl

/-- The inner loop appending the force-split pieces of an oversized
paragraph contributes exactly the pieces' contents. -/
theorem subchunk_fold_contents (rid : Int) (off : Nat) (po : List Nat) :
    ∀ (subs : List (List Char)) (cs : List Chunk),
      chunkContents (subs.foldl
        (fun cs sc => cs ++ [make_chunk sc rid cs.length off po]) cs) =
      chunkContents cs ++ subs.flatten := by
  intro subs
  induction subs with
  | nil => intro cs; simp
  | cons s rest ih =>
    intro cs
    simp only [List.foldl_cons, List.flatten_cons]
    rw [ih (cs ++ [make_chunk s rid cs.length off po]), chunkContents_append,
      chunkContents_single, make_chunk_content]
    simp

/-- One step of the paragraph accumulation loop preserves the
non-whitespace content of produced chunks plus the running buffer. -/
theorem stepPara_nonWS (rid : Int) (mx : Nat) (po : List Nat) (hmx : 1 ≤ mx)
    (st : ChunkState) (p : List Char) :
    nonWS (chunkContents (stepPara rid mx po st p).chunks) ++
      nonWS (stepPara rid mx po st p).cur =
    nonWS (chunkContents st.chunks) ++ nonWS st.cur ++ nonWS p := by
  rw [stepPara]
  by_cases hbig : mx < estimate_tokens p
  · rw [if_pos hbig]
    by_cases hcur : pstrip st.cur ≠ []
    · simp only [if_pos hcur]
      rw [subchunk_fold_contents, chunkContents_append, chunkContents_single,
        make_chunk_content]
      simp only [nonWS_append, nonWS_pstrip, nonWS_nil]
      rw [split_large_block_nonWS mx hmx p]
      simp
    · simp only [if_neg hcur]
      have hnil : pstrip st.cur = [] := by
        by_contra hne
        exact hcur hne
      have hz : nonWS st.cur = [] := pstrip_eq_nil_nonWS hnil
      rw [subchunk_fold_contents]
      simp only [nonWS_append, hz]
      rw [split_large_block_nonWS mx hmx p]
      simp
  · rw [if_neg hbig]
    by_cases hflush : mx < estimate_tokens (st.cur ++ sepNl ++ p) ∧ pstrip st.cur ≠ []
    · rw [if_pos hflush]
      simp only []
      rw [chunkContents_append, chunkContents_single, make_chunk_content]
      simp [nonWS_append, nonWS_pstrip]
    · rw [if_neg hflush]
      by_cases hc : st.cur ≠ []
      · simp only [if_pos hc]
        have hsep : nonWS sepNl = [] := rfl
        simp [nonWS_append, hsep]
      · simp only [if_neg hc]
        have hnil : st.cur = [] := by
          by_contra hne
          exact hc hne
        rw [hnil, nonWS_nil]
        simp

theorem paras_fold_nonWS (rid : Int) (mx : Nat) (po : List Nat) (hmx : 1 ≤ mx) :
    ∀ (paras : List (List Char)) (st : ChunkState),
      nonWS (chunkContents (paras.foldl (stepPara rid mx po) st).chunks) ++
        nonWS (paras.foldl (stepPara rid mx po) st).cur =
      nonWS (chunkContents st.chunks) ++ nonWS st.cur ++ nonWS paras.flatten := by
  intro paras
  induction paras with
  | nil => intro st; simp [nonWS_nil]
  | cons p rest ih =>
    intro st
    simp only [List.foldl_cons, List.flatten_cons]
    rw [ih (stepPara rid mx po st p), stepPara_nonWS rid mx po hmx st p]
    simp [nonWS_append]

/-- Cleaning the paragraph list (strip every piece, drop blank pieces)
does not change the non-whitespace content. -/
theorem paras_clean_nonWS :
    ∀ (P : List (List Char)),
      nonWS ((P.map pstrip).filter (fun p => !p.isEmpty)).flatten = nonWS P.flatten := by
  intro P
  induction P with
  | nil => rfl
  | cons p rest ih =>
    rw [List.map_cons, List.filter_cons, List.flatten_cons, nonWS_append]
    by_cases hp : (pstrip p).isEmpty = true
    · have hnil : pstrip p = [] := by
        rcases he : pstrip p with _ | ⟨a, b⟩
        · rfl
        · rw [he] at hp
          simp at hp
      have hz : nonWS p = [] := pstrip_eq_nil_nonWS hnil
      rw [hp]
      simp [ih, hz]
    · have hpf : (pstrip p).isEmpty = false := by
        simp [hp]
      rw [hpf]
      simp only [Bool.not_false, if_true, List.flatten_cons, nonWS_append]
      rw [ih, nonWS_pstrip]

theorem chunkTextCore_nonWS (full : List Char) (pages : List (List Char)) (rid : Int)
    (tgt mn mx : Nat) (hmx : 1 ≤ mx) :
    nonWS (chunkContents (chunkTextCore full pages rid tgt mn mx)) = nonWS full := by
  simp only [chunkTextCore]
  have hfold := paras_fold_nonWS rid mx (pageOffsets pages) hmx
    (((splitParas full).map pstrip).filter (fun p => !p.isEmpty)) ⟨[], [], 0, 0⟩
  simp only [chunkContents, List.map_nil, List.flatten_nil, nonWS_nil,
    List.nil_append] at hfold
  rw [paras_clean_nonWS, splitParas_flatten_nonWS] at hfold
  set st := (((splitParas full).map pstrip).filter
    (fun p => !p.isEmpty)).foldl (stepPara rid mx (pageOffsets pages)) ⟨[], [], 0, 0⟩
  by_cases hcur : pstrip st.cur ≠ []
  · simp only [if_pos hcur]
    rw [chunkContents_append, chunkContents_single, make_chunk_content, nonWS_append,
      nonWS_pstrip]
    exact hfold
  · simp only [if_neg hcur]
    have hnil : pstrip st.cur = [] := by
      by_contra hne
      exact hcur hne
    have hz : nonWS st.cur = [] := pstrip_eq_nil_nonWS hnil
    rw [hz, List.append_nil] at hfold
    exact hfold

theorem mergeTrailing_nonWS (mn mx : Nat) (cs : List Chunk) :
    nonWS (chunkContents (mergeTrailing mn mx cs)) = nonWS (chunkContents cs) := by
  rw [mergeTrailing]
  rcases hrev : cs.reverse with _ | ⟨last, _ | ⟨prev, restRev⟩⟩
  · rfl
  · rfl
  · have hcs : cs = restRev.reverse ++ [prev] ++ [last] := by
      have h1 : cs = (last :: prev :: restRev).reverse := by
        rw [← hrev, List.reverse_reverse]
      rw [h1]
      simp
    by_cases htiny : tinyTrailing last.token_count mn = true
    · simp only [if_pos htiny]
      by_cases hfit : 2 * estimate_tokens (prev.content ++ sepNl ++ last.content) ≤ 3 * mx
      · simp only [if_pos hfit]
        rw [hcs]
        simp only [List.reverse_cons, chunkContents_append, chunkContents_single,
          nonWS_append]
        have hsep : nonWS sepNl = [] := rfl
        simp [nonWS_append, hsep, chunkContents, nonWS_nil]
      · simp only [if_neg hfit]
    · simp only [if_neg htiny]

/-- C1: for valid token budgets (min_tokens at most target_tokens at
most max_tokens, max_tokens positive), the concatenation of the chunk
contents returned by chunk_text carries exactly the non-whitespace
characters of the input text in order: ignoring whitespace separators,
no content is dropped or duplicated. -/
theorem C1_chunk_content_preservation (full : List Char) (pages : List (List Char))
    (rid : Int) (tgt mn mx : Nat) (h1 : mn ≤ tgt) (h2 : tgt ≤ mx) (h3 : 1 ≤ mx) :
    nonWS (chunkContents (chunk_text full pages rid tgt mn mx)) = nonWS full := by
  rw [chunk_text, mergeTrailing_nonWS, chunkTextCore_nonWS full pages rid tgt mn mx h3]

/-- C1 witness: a concrete two-page document with the default budgets. -/
theorem C1_witness :
    256 ≤ 320 ∧ 320 ≤ 384 ∧ 1 ≤ 384 ∧
    nonWS (chunkContents (chunk_text "ab \n\n cd".toList ["ab".toList, "cd".toList]
      1 320 256 384)) = nonWS "ab \n\n cd".toList :=
  ⟨by decide, by decide, by decide,
    C1_chunk_content_preservation "ab \n\n cd".toList ["ab".toList, "cd".toList]
      1 320 256 384 (by decide) (by decide) (by decide)⟩

/-! Index contiguity lemmas for claim C8. -/

theorem make_chunk_index (t : List Char) (rid : Int) (i s : Nat) (po : List Nat) :
    (make_chunk t rid i s po).chunk_index = i := rfl

theorem indexes_append_make (cs : List Chunk) (t : List Char) (rid : Int) (s : Nat)
    (po : List Nat) (h : cs.map (fun c => c.chunk_index) = List.range cs.length) :
    (cs ++ [make_chunk t rid cs.length s po]).map (fun c => c.chunk_index) =
    List.range (cs ++ [make_chunk t rid cs.length s po]).length := by
  rw [List.map_append, h]
  simp [make_chunk_index, List.range_succ]

theorem subchunk_fold_indexes (rid : Int) (off : Nat) (po : List Nat) :
    ∀ (subs : List (List Char)) (cs : List Chunk),
      cs.map (fun c => c.chunk_index) = List.range cs.length →
      ((subs.foldl (fun cs sc => cs ++ [make_chunk sc rid cs.length off po]) cs).map
        (fun c => c.chunk_index)) =
      List.range (subs.foldl
        (fun cs sc => cs ++ [make_chunk sc rid cs.length off po]) cs).length := by
  intro subs
  induction subs with
  | nil => intro cs h; exact h
  | cons s rest ih =>
    intro cs h
    simp only [List.foldl_cons]
    exact ih (cs ++ [make_chunk s rid cs.length off po])
      (indexes_append_make cs s rid off po h)

theorem stepPara_indexes (rid : Int) (mx : Nat) (po : List Nat) (st : ChunkState)
    (p : List Char) (h : st.chunks.map (fun c => c.chunk_index) = List.range st.chunks.length) :
    (stepPara rid mx po st p).chunks.map (fun c => c.chunk_index) =
    List.range (stepPara rid mx po st p).chunks.length := by
  rw [stepPara]
  by_cases hbig : mx < estimate_tokens p
  · rw [if_pos hbig]
    by_cases hcur : pstrip st.cur ≠ []
    · simp only [if_pos hcur]
      exact subchunk_fold_indexes rid st.off po (split_large_block mx p) _
        (indexes_append_make st.chunks (pstrip st.cur) rid st.curStart po h)
    · simp only [if_neg hcur]
      exact subchunk_fold_indexes rid st.off po (split_large_block mx p) _ h
  · rw [if_neg hbig]
    by_cases hflush : mx < estimate_tokens (st.cur ++ sepNl ++ p) ∧ pstrip st.cur ≠ []
    · rw [if_pos hflush]
      exact indexes_append_make st.chunks (pstrip st.cur) rid st.curStart po h
    · rw [if_neg hflush]
      by_cases hc : st.cur ≠ []
      · simp only [if_pos hc]
        exact h
      · simp only [if_neg hc]
        exact h

theorem paras_fold_indexes (rid : Int) (mx : Nat) (po : List Nat) :
    ∀ (paras : List (List Char)) (st : ChunkState),
      st.chunks.map (fun c => c.chunk_index) = List.range st.chunks.length →
      ((paras.foldl (stepPara rid mx po) st).chunks.map (fun c => c.chunk_index)) =
      List.range (paras.foldl (stepPara rid mx po) st).chunks.length := by
  intro paras
  induction paras with
  | nil => intro st h; exact h
  | cons p rest ih =>
    intro st h
    simp only [List.foldl_cons]
    exact ih (stepPara rid mx po st p) (stepPara_indexes rid mx po st p h)

theorem chunkTextCore_indexes (full : List Char) (pages : List (List Char)) (rid : Int)
    (tgt mn mx : Nat) :
    (chunkTextCore full pages rid tgt mn mx).map (fun c => c.chunk_index) =
    List.range (chunkTextCore full pages rid tgt mn mx).length := by
  simp only [chunkTextCore]
  set st := (((splitParas full).map pstrip).filter
    (fun p => !p.isEmpty)).foldl (stepPara rid mx (pageOffsets pages)) ⟨[], [], 0, 0⟩ with hst
  have h : st.chunks.map (fun c => c.chunk_index) = List.range st.chunks.length := by
    rw [hst]
    exact paras_fold_indexes rid mx (pageOffsets pages) _ ⟨[], [], 0, 0⟩ rfl
  by_cases hcur : pstrip st.cur ≠ []
  · simp only [if_pos hcur]
    exact indexes_append_make st.chunks (pstrip st.cur) rid st.curStart
      (pageOffsets pages) h
  · simp only [if_neg hcur]
    exact h

theorem mergeTrailing_indexes (mn mx : Nat) (cs : List Chunk)
    (h : cs.map (fun c => c.chunk_index) = List.range cs.length) :
    (mergeTrailing mn mx cs).map (fun c => c.chunk_index) =
    List.range (mergeTrailing mn mx cs).length := by
  rw [mergeTrailing]
  rcases hrev : cs.reverse with _ | ⟨last, _ | ⟨prev, restRev⟩⟩
  · exact h
  · exact h
  · have hcs : cs = restRev.reverse ++ [prev] ++ [last] := by
      have h1 : cs = (last :: prev :: restRev).reverse := by
        rw [← hrev, List.reverse_reverse]
      rw [h1]
      simp
    by_cases htiny : tinyTrailing last.token_count mn = true
    · simp only [if_pos htiny]
      by_cases hfit : 2 * estimate_tokens (prev.content ++ sepNl ++ last.content) ≤ 3 * mx
      · simp only [if_pos hfit]
        rw [hcs] at h
        simp only [List.map_append, List.length_append, List.length_reverse,
          List.map_cons, List.map_nil, List.length_cons, List.length_nil] at h
        have hsplit : List.range (restRev.length + 0 + 1 + 1) =
            List.range restRev.length ++ [restRev.length, restRev.length + 1] := by
          rw [List.range_succ, List.range_succ]
          simp
        rw [hsplit] at h
        have hlen1 : (restRev.reverse.map (fun c => c.chunk_index)).length =
            (List.range restRev.length).length := by
          simp
        obtain ⟨ha, hb⟩ := List.append_inj (by simpa using h) (by simpa using hlen1)
        have hprev : prev.chunk_index = restRev.length := by
          have h2 := List.head_eq_of_cons_eq hb
          simpa using h2
        have hmap : restRev.reverse.map (fun c => c.chunk_index) =
            List.range restRev.length := by
          simpa using ha
        simp [List.range_succ, hmap, hprev]
      · simp only [if_neg hfit]
        exact h
    · simp only [if_neg htiny]
      exact h

/-- C8: for every input and valid token budget, the chunk_index values
of the sequence returned by chunk_text form the contiguous zero-based
sequence 0, 1, 2, ..., including after the trailing-merge post-pass. -/
theorem C8_chunk_indexes (full : List Char) (pages : List (List Char)) (rid : Int)
    (tgt mn mx : Nat) (h1 : mn ≤ tgt) (h2 : tgt ≤ mx) (h3 : 1 ≤ mx) :
    (chunk_text full pages rid tgt mn mx).map (fun c => c.chunk_index) =
    List.range (chunk_text full pages rid tgt mn mx).length := by
  rw [chunk_text]
  exact mergeTrailing_indexes mn mx _ (chunkTextCore_indexes full pages rid tgt mn mx)

/-- C8 witness: a concrete three-paragraph document. -/
theorem C8_witness :
    256 ≤ 320 ∧ 320 ≤ 384 ∧ 1 ≤ 384 ∧
    (chunk_text "a\n\nb\n\nc".toList ["a\n\nb\n\nc".toList] 1 320 256 384).map
      (fun c => c.chunk_index) =
    List.range (chunk_text "a\n\nb\n\nc".toList ["a\n\nb\n\nc".toList] 1 320 256 384).length :=
  ⟨by decide, by decide, by decide,
    C8_chunk_indexes "a\n\nb\n\nc".toList ["a\n\nb\n\nc".toList] 1 320 256 384
      (by decide) (by decide) (by decide)⟩

/-! The is_table flag: every chunk created by the chunker carries the
flag computed by the table heuristic from its creation-time content. -/

theorem make_chunk_is_table (t : List Char) (rid : Int) (i s : Nat) (po : List Nat) :
    (make_chunk t rid i s po).is_table = is_table_block (make_chunk t rid i s po).content :=
  rfl

theorem subchunk_fold_tableP (rid : Int) (off : Nat) (po : List Nat) :
    ∀ (subs : List (List Char)) (cs : List Chunk),
      (∀ c ∈ cs, c.is_table = is_table_block c.content) →
      ∀ c ∈ subs.foldl (fun cs sc => cs ++ [make_chunk sc rid cs.length off po]) cs,
        c.is_table = is_table_block c.content := by
  intro subs
  induction subs with
  | nil => intro cs h; exact h
  | cons s rest ih =>
    intro cs h
    simp only [List.foldl_cons]
    refine ih (cs ++ [make_chunk s rid cs.length off po]) ?_
    intro c hc
    rcases List.mem_append.mp hc with h1 | h1
    · exact h c h1
    · rw [List.mem_singleton.mp h1]
      rfl

theorem stepPara_tableP (rid : Int) (mx : Nat) (po : List Nat) (st : ChunkState)
    (p : List Char) (h : ∀ c ∈ st.chunks, c.is_table = is_table_block c.content) :
    ∀ c ∈ (stepPara rid mx po st p).chunks, c.is_table = is_table_block c.content := by
  rw [stepPara]
  have happend : ∀ (t : List Char) (s : Nat),
      ∀ c ∈ st.chunks ++ [make_chunk t rid st.chunks.length s po],
        c.is_table = is_table_block c.content := by
    intro t s c hc
    rcases List.mem_append.mp hc with h1 | h1
    · exact h c h1
    · rw [List.mem_singleton.mp h1]
      rfl
  by_cases hbig : mx < estimate_tokens p
  · rw [if_pos hbig]
    by_cases hcur : pstrip st.cur ≠ []
    · simp only [if_pos hcur]
      exact subchunk_fold_tableP rid st.off po (split_large_block mx p) _
        (happend (pstrip st.cur) st.curStart)
    · simp only [if_neg hcur]
      exact subchunk_fold_tableP rid st.off po (split_large_block mx p) _ h
  · rw [if_neg hbig]
    by_cases hflush : mx < estimate_tokens (st.cur ++ sepNl ++ p) ∧ pstrip st.cur ≠ []
    · rw [if_pos hflush]
      exact happend (pstrip st.cur) st.curStart
    · rw [if_neg hflush]
      by_cases hc : st.cur ≠ []
      · simp only [if_pos hc]
        exact h
      · simp only [if_neg hc]
        exact h

theorem paras_fold_tableP (rid : Int) (mx : Nat) (po : List Nat) :
    ∀ (paras : List (List Char)) (st : ChunkState),
      (∀ c ∈ st.chunks, c.is_table = is_table_block c.content) →
      ∀ c ∈ (paras.foldl (stepPara rid mx po) st).chunks,
        c.is_table = is_table_block c.content := by
  intro paras
  induction paras with
  | nil => intro st h; exact h
  | cons p rest ih =>
    intro st h
    simp only [List.foldl_cons]
    exact ih (stepPara rid mx po st p) (stepPara_tableP rid mx po st p h)

theorem chunkTextCore_tableP (full : List Char) (pages : List (List Char)) (rid : Int)
    (tgt mn mx : Nat) :
    ∀ c ∈ chunkTextCore full pages rid tgt mn mx,
      c.is_table = is_table_block c.content := by
  simp only [chunkTextCore]
  set st := (((splitParas full).map pstrip).filter
    (fun p => !p.isEmpty)).foldl (stepPara rid mx (pageOffsets pages)) ⟨[], [], 0, 0⟩ with hst
  have h : ∀ c ∈ st.chunks, c.is_table = is_table_block c.content := by
    rw [hst]
    exact paras_fold_tableP rid mx (pageOffsets pages) _ ⟨[], [], 0, 0⟩
      (by intro c hc; simp at hc)
  by_cases hcur : pstrip st.cur ≠ []
  · simp only [if_pos hcur]
    intro c hc
    rcases List.mem_append.mp hc with h1 | h1
    · exact h c h1
    · rw [List.mem_singleton.mp h1]
      exact make_chunk_is_table _ _ _ _ _
  · simp only [if_neg hcur]
    exact h

/-- Unfolding of the table heuristic as a two-sided condition. -/
theorem is_table_block_iff (t : List Char) :
    is_table_block t = true ↔
      (2 ≤ (splitOnNl (pstrip t)).length ∧
       (splitOnNl (pstrip t)).length < 2 * (splitOnNl (pstrip t)).countP lineTabby) := by
  rw [is_table_block]
  by_cases hlt : (splitOnNl (pstrip t)).length < 2
  · simp only [if_pos hlt]
    constructor
    · intro hfalse
      exact absurd hfalse (by simp)
    · intro hand
      omega
  · simp only [if_neg hlt]
    constructor
    · intro hdec
      exact ⟨by omega, of_decide_eq_true hdec⟩
    · intro hand
      exact decide_eq_true hand.2

/-- C7 (amended): for every chunk as produced by the chunking pass
(before the trailing-merge post-pass, which can rewrite the penultimate
chunk's content without recomputing its flag), the chunk is flagged
is_table if and only if its stripped content has at least two lines and
more than half of those lines contain a tab character, a pipe
character, or at least 2 runs of 3 or more consecutive whitespace
characters. -/
theorem C7_is_table_iff (full : List Char) (pages : List (List Char)) (rid : Int)
    (tgt mn mx : Nat) (hmx : 1 ≤ mx) :
    ∀ c ∈ chunkTextCore full pages rid tgt mn mx,
      (c.is_table = true ↔
        (2 ≤ (splitOnNl (pstrip c.content)).length ∧
         (splitOnNl (pstrip c.content)).length <
           2 * (splitOnNl (pstrip c.content)).countP lineTabby)) := by
  intro c hc
  rw [chunkTextCore_tableP full pages rid tgt mn mx c hc]
  exact is_table_block_iff c.content

/-- C7 counterexample: a one-line tab-separated document produces a
single chunk whose single line is columnar (so the claim's "more than
half of the lines" condition holds), yet is_table is false because the
heuristic requires at least two lines. -/
theorem C7_counterexample_single_line :
    ¬ (∀ c ∈ chunk_text "a\tb".toList ["a\tb".toList] 1 320 256 384,
        (c.is_table = true ↔ claimTablePred c.content = true)) := by
  decide

/-- C7 witness: a two-line tab-separated document; the produced chunk
is flagged and satisfies the two-sided condition. -/
theorem C7_witness :
    (⟨1, 0, "a\tb\nc\td".toList, some 1, some 1, some 2, true⟩ : Chunk) ∈
      chunkTextCore "a\tb\nc\td".toList ["a\tb\nc\td".toList] 1 320 256 384 ∧
    ((⟨1, 0, "a\tb\nc\td".toList, some 1, some 1, some 2, true⟩ : Chunk).is_table = true ↔
      (2 ≤ (splitOnNl (pstrip "a\tb\nc\td".toList)).length ∧
       (splitOnNl (pstrip "a\tb\nc\td".toList)).length <
         2 * (splitOnNl (pstrip "a\tb\nc\td".toList)).countP lineTabby)) :=
  ⟨by decide,
    C7_is_table_iff "a\tb\nc\td".toList ["a\tb\nc\td".toList] 1 320 256 384 (by decide)
      _ (by decide)⟩

/-! Behaviour of the splitters on whitespace-free text, used for the C6
claims about single-paragraph documents. -/

theorem splitParasGo_wsfree :
    ∀ (l : List Char), (∀ c ∈ l, isWS c = false) →
      ∀ (p : List Char), splitParasGo p [] l = [p.reverse ++ l] := by
  intro l
  induction l with
  | nil =>
    intro hl p
    simp [splitParasGo, nlCount]
  | cons c rest ih =>
    intro hl p
    have hc : isWS c = false := hl c (List.mem_cons_self c rest)
    have hrest : ∀ d ∈ rest, isWS d = false := by
      intro d hd
      exact hl d (List.mem_cons_of_mem c hd)
    simp only [splitParasGo, hc, Bool.false_eq_true, if_false, nlCount,
      List.countP_nil]
    rw [if_neg (by omega), ih hrest (c :: ([] ++ p))]
    simp

theorem splitSentGo_wsfree :
    ∀ (l : List Char), (∀ c ∈ l, isWS c = false) →
      ∀ (p : List Char), splitSentGo p [] l = [p.reverse ++ l] := by
  intro l
  induction l with
  | nil =>
    intro hl p
    cases p with
    | nil => simp [splitSentGo]
    | cons h t => simp [splitSentGo]
  | cons c rest ih =>
    intro hl p
    have hc : isWS c = false := hl c (List.mem_cons_self c rest)
    have hrest : ∀ d ∈ rest, isWS d = false := by
      intro d hd
      exact hl d (List.mem_cons_of_mem c hd)
    cases p with
    | nil =>
      simp only [splitSentGo, hc, Bool.false_eq_true, if_false]
      rw [ih hrest (c :: ([] ++ []))]
      simp
    | cons h t =>
      simp only [splitSentGo, hc, Bool.false_eq_true, if_false, List.isEmpty_nil,
        Bool.not_true, Bool.false_and]
      rw [ih hrest (c :: ([] ++ h :: t))]
      simp

theorem splitParas_wsfree (l : List Char) (hl : ∀ c ∈ l, isWS c = false) :
    splitParas l = [l] := by
  rw [splitParas, splitParasGo_wsfree l hl []]
  rfl

theorem splitSentences_wsfree (l : List Char) (hl : ∀ c ∈ l, isWS c = false) :
    splitSentences l = [l] := by
  rw [splitSentences, splitSentGo_wsfree l hl []]
  rfl

theorem splitOnNl_nonl :
    ∀ (l : List Char), (∀ c ∈ l, (c == '\n') = false) → splitOnNl l = [l] := by
  intro l
  induction l with
  | nil => intro hl; rfl
  | cons c rest ih =>
    intro hl
    have hc : (c == '\n') = false := hl c (List.mem_cons_self c rest)
    have hrest : ∀ d ∈ rest, (d == '\n') = false := by
      intro d hd
      exact hl d (List.mem_cons_of_mem c hd)
    simp only [splitOnNl, hc, Bool.false_eq_true, if_false]
    rw [ih hrest]

theorem dropWhile_wsfree (l : List Char) (hl : ∀ c ∈ l, isWS c = false) :
    l.dropWhile isWS = l := by
  cases l with
  | nil => rfl
  | cons c rest =>
    exact List.dropWhile_cons_of_neg
      (by simp [hl c (List.mem_cons_self c rest)])

theorem pstrip_wsfree (l : List Char) (hl : ∀ c ∈ l, isWS c = false) :
    pstrip l = l := by
  rw [pstrip, dropWhile_wsfree l hl,
    dropWhile_wsfree l.reverse (fun c hc => hl c (List.mem_reverse.mp hc)),
    List.reverse_reverse]

theorem wsfree_nonl (l : List Char) (hl : ∀ c ∈ l, isWS c = false) :
    ∀ c ∈ l, (c == '\n') = false := by
  intro c hc
  by_contra hne
  have heq : c = '\n' := by
    have h1 : (c == '\n') = true := by
      rcases hb : (c == '\n') with _ | _
      · exact absurd hb hne
      · rfl
    simpa using h1
  have h2 := hl c hc
  rw [heq] at h2
  exact absurd h2 (by simp [isWS])

theorem replicate_wsfree (n : Nat) : ∀ c ∈ List.replicate n 'a', isWS c = false := by
  intro c hc
  rw [(List.mem_replicate.mp hc).2]
  decide

theorem splitEveryGo_nil (fuel k : Nat) : splitEveryGo fuel k [] = [] := by
  cases fuel with
  | zero => rfl
  | succ f => rfl

theorem mergeTrailing_single (mn mx : Nat) (c : Chunk) :
    mergeTrailing mn mx [c] = [c] := rfl

theorem mergeTrailing_pair (mn mx : Nat) (c1 c2 : Chunk) :
    mergeTrailing mn mx [c1, c2] =
    if tinyTrailing c2.token_count mn = true then
      if 2 * estimate_tokens (c1.content ++ sepNl ++ c2.content) ≤ 3 * mx then
        [{ c1 with
            content := c1.content ++ sepNl ++ c2.content
            token_count := some (estimate_tokens (c1.content ++ sepNl ++ c2.content))
            page_end := c2.page_end }]
      else [c1, c2]
    else [c1, c2] := rfl

/-- C6 (amended): empty input yields zero chunks; a one-page document
whose text is non-blank, contains no blank-line paragraph break, and
whose stripped text fits the max_tokens budget yields exactly one
chunk.  (Without the budget bound the claim fails: a long break-free
paragraph is force-split into several chunks.) -/
theorem C6_empty_and_single_chunk :
    (∀ (pages : List (List Char)) (rid : Int) (tgt mn mx : Nat),
      chunk_text [] pages rid tgt mn mx = []) ∧
    (∀ (full : List Char) (rid : Int) (tgt mn mx : Nat),
      splitParas full = [full] → pstrip full ≠ [] →
      estimate_tokens (pstrip full) ≤ mx →
      (chunk_text full [full] rid tgt mn mx).length = 1) := by
  constructor
  · intro pages rid tgt mn mx
    rfl
  · intro full rid tgt mn mx hsp hne hest
    have hfe : (pstrip full).isEmpty = false := by
      rcases hb : (pstrip full).isEmpty with _ | _
      · rfl
      · exact absurd (List.isEmpty_iff.mp hb) hne
    have hstep : stepPara rid mx (pageOffsets [full]) ⟨[], [], 0, 0⟩ (pstrip full) =
        ⟨[], pstrip full, 0, 0 + (pstrip full).length + 2⟩ := by
      rw [stepPara]
      rw [if_neg (by omega : ¬ (mx < estimate_tokens (pstrip full)))]
      rw [if_neg (fun h => h.2 rfl)]
      rw [if_neg (fun h => h rfl)]
    have hstrip2 : pstrip (pstrip full) ≠ [] := by
      intro h0
      have hz : nonWS (pstrip full) = [] := pstrip_eq_nil_nonWS h0
      rw [nonWS_pstrip] at hz
      exact pstrip_ne_nil_nonWS hne hz
    rw [chunk_text]
    simp only [chunkTextCore, hsp, List.map_cons, List.map_nil, List.filter_cons,
      List.filter_nil, hfe, Bool.not_false, if_true, List.foldl_cons, List.foldl_nil,
      hstep]
    rw [if_pos hstrip2]
    rw [List.nil_append, mergeTrailing_single]
    rfl

/-- C6 witness for the single-chunk half. -/
theorem C6_witness :
    splitParas "hello".toList = ["hello".toList] ∧
    pstrip "hello".toList ≠ [] ∧
    estimate_tokens (pstrip "hello".toList) ≤ 384 ∧
    (chunk_text "hello".toList ["hello".toList] 1 320 256 384).length = 1 :=
  ⟨by decide, by decide, by decide,
    C6_empty_and_single_chunk.2 "hello".toList 1 320 256 384
      (by decide) (by decide) (by decide)⟩

/-- A nonempty list is not isEmpty. -/

theorem isEmpty_false_of_pos {l : List Char} (h : 0 < l.length) : l.isEmpty = false := by
  cases l with
  | nil => simp at h
  | cons c r => rfl

/-- The window split of a text that needs exactly two windows. -/
theorem splitEvery_two_windows (k : Nat) (l : List Char) (h1 : 0 < k)
    (h2 : k < l.length) (h3 : l.length - k ≤ k) :
    splitEvery k l = [l.take k, l.drop k] := by
  rw [splitEvery]
  rcases l with _ | ⟨c, r⟩
  · simp at h2
  rcases r with _ | ⟨c2, r2⟩
  · simp at h2
    omega
  simp only [List.length_cons]
  simp only [splitEveryGo, List.isEmpty_cons, Bool.false_eq_true, if_false]
  have hlen1 : ((c :: c2 :: r2).drop k).length = r2.length + 1 + 1 - k := by
    rw [List.length_drop]
    simp
  have hne2 : ((c :: c2 :: r2).drop k).isEmpty = false := by
    refine isEmpty_false_of_pos ?_
    rw [hlen1]
    simp only [List.length_cons] at h2
    omega
  rw [hne2]
  simp only [Bool.false_eq_true, if_false]
  have htake2 : ((c :: c2 :: r2).drop k).take k = (c :: c2 :: r2).drop k := by
    refine List.take_of_length_le ?_
    rw [hlen1]
    simp only [List.length_cons] at h3
    omega
  have hdrop2 : ((c :: c2 :: r2).drop k).drop k = [] := by
    refine List.eq_nil_of_length_eq_zero ?_
    rw [List.length_drop, hlen1]
    simp only [List.length_cons] at h3
    omega
  rw [htake2, hdrop2, splitEveryGo_nil]

/-- C6 counterexample: a one-page document of 2018 identical letters
with no paragraph break is force-split by character windows into two
chunks (and the trailing merge does not fire because the merged size
would exceed 1.5 * max_tokens), so chunk_text does not yield exactly
one chunk. -/
theorem C6_counterexample_long_single_paragraph :
    (chunk_text (List.replicate 2018 'a') [List.replicate 2018 'a'] 1 320 256 384).length
      ≠ 1 := by
  have hrep := replicate_wsfree 2018
  generalize hL : List.replicate 2018 'a' = L at hrep
  have hlen : L.length = 2018 := by
    rw [← hL, List.length_replicate]
  have hsp : splitParas L = [L] := splitParas_wsfree _ hrep
  have hps : pstrip L = L := pstrip_wsfree _ hrep
  have hest : estimate_tokens L = 576 := by
    rw [estimate_tokens, hlen]
    decide
  have hsl : split_large_block 384 L = [L.take 1344, L.drop 1344] := by
    simp only [split_large_block]
    rw [splitSentences_wsfree _ hrep, splitOnNl_nonl _ (wsfree_nonl _ hrep)]
    simp only [List.length_cons, List.length_nil, le_refl, if_true]
    have hk : maxChars 384 = 1344 := rfl
    rw [hk]
    refine splitEvery_two_windows 1344 L (by omega) ?_ ?_
    · omega
    · omega
  have hfe : L.isEmpty = false := isEmpty_false_of_pos (by omega)
  have hcore : chunkTextCore L [L] 1 320 256 384 =
      [make_chunk (L.take 1344) 1 0 0 (pageOffsets [L]),
       make_chunk (L.drop 1344) 1 1 0 (pageOffsets [L])] := by
    simp only [chunkTextCore, hsp, List.map_cons, List.map_nil, hps, List.filter_cons,
      List.filter_nil, hfe, Bool.not_false, if_true, List.foldl_cons, List.foldl_nil]
    rw [stepPara]
    rw [if_pos (by rw [hest]; omega : (384 : Nat) < estimate_tokens L)]
    rw [if_neg (fun h => h rfl)]
    rw [hsl]
    simp only [List.foldl_cons, List.foldl_nil, List.nil_append, List.length_nil,
      List.length_cons]
    rw [if_neg (fun h => h rfl)]
    rfl
  rw [chunk_text, hcore, mergeTrailing_pair]
  have ht : tinyTrailing (make_chunk (L.drop 1344) 1 1 0
      (pageOffsets [L])).token_count 256 = true := by
    show tinyTrailing (some (estimate_tokens (L.drop 1344))) 256 = true
    rw [estimate_tokens, List.length_drop, hlen]
    decide
  rw [if_pos ht]
  have hm : ¬ (2 * estimate_tokens
      ((make_chunk (L.take 1344) 1 0 0 (pageOffsets [L])).content ++ sepNl ++
        (make_chunk (L.drop 1344) 1 1 0 (pageOffsets [L])).content) ≤ 3 * 384) := by
    show ¬ (2 * estimate_tokens (L.take 1344 ++ sepNl ++ L.drop 1344) ≤ 3 * 384)
    rw [estimate_tokens, List.length_append, List.length_append, List.length_take,
      List.length_drop, hlen]
    decide
  rw [if_neg hm]
  simp
